import Mathlib

/-!
Shallow embedding of the astra-tools citation-key generator
(`src/astra_tools/bib/regenerate_keys.py`) and the citation-mapping /
text-cleanup logic of the Quarto converter
(`src/astra_tools/converters/json_to_qmd.py`).

Python strings are modelled as `String` / `List Char` (ASCII data, matching
the tool's inputs).  Each Python regular-expression operation is translated
into an explicit character scan with the same matching semantics (leftmost
match, greedy quantifiers; the few places where backtracking could matter are
noted in the doc comments).  Python operations that can raise an exception
(`parts[-1]` on an empty list) are modelled with `Option`; file I/O is
elided, functions take the file contents directly.
-/

/-- Python `\s` on ASCII text: space, tab, newline, carriage return,
vertical tab, form feed. -/
def isPyWs (c : Char) : Bool :=
  c = ' ' || c = '\t' || c = '\n' || c = '\r' || c = '\x0b' || c = '\x0c'

/-- Horizontal whitespace, Python character class `[ \t]`. -/
def isHorizWs (c : Char) : Bool := c = ' ' || c = '\t'

/-- Python `\w` on ASCII text: letters, digits, underscore. -/
def isWordChar (c : Char) : Bool := c.isAlphanum || c = '_'

/-- Character class `[a-zA-Z]`. -/
def isAsciiAlpha (c : Char) : Bool := ('a' ≤ c && c ≤ 'z') || ('A' ≤ c && c ≤ 'Z')

/-- Character class `[A-Z]`. -/
def isAsciiUpper (c : Char) : Bool := 'A' ≤ c && c ≤ 'Z'

/-- Character class `[a-z]`. -/
def isAsciiLower (c : Char) : Bool := 'a' ≤ c && c ≤ 'z'

/-- ASCII model of Python `str.lower` on one character. -/
def pyLowerChar (c : Char) : Char :=
  if isAsciiUpper c then Char.ofNat (c.toNat + 32) else c

/-- ASCII model of Python `str.upper` on one character. -/
def pyUpperChar (c : Char) : Char :=
  if isAsciiLower c then Char.ofNat (c.toNat - 32) else c

/-- Python `str.lower`. -/
def pyLower (s : String) : String := String.mk (s.data.map pyLowerChar)

/-- Python `str.strip()` on a character list: drop `\s` from both ends. -/
def pyStripList (l : List Char) : List Char :=
  ((l.dropWhile isPyWs).reverse.dropWhile isPyWs).reverse

/-- Python `str.strip()`. -/
def pyStrip (s : String) : String := String.mk (pyStripList s.data)

/-- Python `str.capitalize()`: first character upper-cased, the rest
lower-cased ("Mc" becomes "Mc" only in the first letter; `"McDonald"`
capitalizes to `"Mcdonald"`). -/
def pyCapitalizeList : List Char → List Char
  | [] => []
  | c :: cs => pyUpperChar c :: cs.map pyLowerChar

/-- Python `str.split()` (no argument): maximal runs of non-whitespace. -/
def splitPyWsAux (cur : List Char) : List Char → List (List Char)
  | [] => if cur = [] then [] else [cur.reverse]
  | c :: cs =>
    if isPyWs c then
      if cur = [] then splitPyWsAux [] cs else cur.reverse :: splitPyWsAux [] cs
    else splitPyWsAux (c :: cur) cs

/-- Python `str.split()` (no argument). -/
def splitPyWs (l : List Char) : List (List Char) := splitPyWsAux [] l

/-- Everything before the first `,`. -/
def takeUntilComma (l : List Char) : List Char := l.takeWhile (fun c => c ≠ ',')

/-- Does this suffix begin with the separator tail `and\s` (case-insensitive
`and` followed by whitespace)?  Used by `firstAndSplit` after a whitespace
run, together implementing the separator regex `\s+and\s+`. -/
def matchesAndSep (r : List Char) : Bool :=
  match r with
  | a :: n :: d :: x :: _ =>
    pyLowerChar a = 'a' && pyLowerChar n = 'n' && pyLowerChar d = 'd' && isPyWs x
  | _ => false

/-- First element of Python `re.split(r'\s+and\s+', l, flags=re.IGNORECASE)`:
the prefix of `l` before the first whitespace-delimited case-insensitive
`and` (the whole list when there is no such separator).  The separator
matches at a position exactly when the character there is whitespace and
`and` plus whitespace follows the whitespace run (`\s+` must reach the first
non-whitespace character, since `a` is not whitespace). -/
def firstAndSplit : List Char → List Char
  | [] => []
  | c :: cs =>
    if isPyWs c && matchesAndSep (cs.dropWhile isPyWs) then []
    else c :: firstAndSplit cs

/-- The stop-word set `SKIP_WORDS` of `regenerate_keys.py`, verbatim. -/
def SKIP_WORDS : List String :=
  ["a", "an", "the", "and", "or", "but", "in", "on", "at", "to", "for",
   "of", "with", "by", "from", "as", "is", "was", "are", "were", "been",
   "be", "have", "has", "had", "do", "does", "did", "will", "would",
   "should", "could", "may", "might", "must", "can", "using", "via",
   "through", "into", "onto", "upon", "about", "over", "under", "between",
   "among", "during", "before", "after", "above", "below", "this", "that",
   "these", "those", "our", "their", "its", "his", "her"]

/-- `extract_author_lastname` of `regenerate_keys.py`.  Returns `none` when
the Python code would raise `IndexError` (`parts[-1]` on an empty list,
reachable for a whitespace-only or brace-only author field). -/
def extract_author_lastname (author_field : String) : Option String :=
  if author_field = "" then some "Unknown"
  else
    -- re.sub(r'[{}]', '', author_field).strip()
    let af := pyStripList (author_field.data.filter (fun c => !(c = '\x7b' || c = '\x7d')))
    -- authors = re.split(r'\s+and\s+', ...); first_author = authors[0].strip()
    let first_author := pyStripList (firstAndSplit af)
    let lastname? : Option (List Char) :=
      if first_author.contains ',' then
        -- "Last, First": part before the comma, stripped
        some (pyStripList (takeUntilComma first_author))
      else
        -- "First Last": last whitespace-delimited token (IndexError when none)
        (splitPyWs first_author).getLast?
    match lastname? with
    | none => none
    | some lastname =>
      -- re.sub(r'[^\w]', '', lastname), then .capitalize()
      some (String.mk (pyCapitalizeList (lastname.filter isWordChar)))

/-- First run of four consecutive decimal digits (`re.search(r'\d{4}', ·)`). -/
def find4Digits : List Char → Option (List Char)
  | [] => none
  | c :: cs =>
    let four := (c :: cs).take 4
    if four.length = 4 && four.all Char.isDigit then some four else find4Digits cs

/-- `extract_year` of `regenerate_keys.py`. -/
def extract_year (year_field : String) : String :=
  if year_field = "" then "NoYear"
  else
    match find4Digits year_field.data with
    | some d => String.mk d
    | none => "NoYear"

/-- The words of a title: Python `re.findall(r'\b[a-zA-Z]+\b', title)`.
A maximal alphabetic run is a match exactly when the characters adjacent to
it are not word characters (`\b` is a `\w`-boundary, so a run glued to a
digit or underscore is not returned).  The Boolean argument records whether
the previous character was a word character. -/
def rawWordsAux (prevW : Bool) (cur : List Char) : List Char → List (List Char)
  | [] => if cur.isEmpty then [] else [cur.reverse]
  | c :: cs =>
    if !cur.isEmpty then
      -- inside an alphabetic run that started at a word boundary
      if isAsciiAlpha c then rawWordsAux true (c :: cur) cs
      else if isWordChar c then rawWordsAux true [] cs  -- trailing boundary fails
      else cur.reverse :: rawWordsAux false [] cs
    else
      if isAsciiAlpha c && !prevW then rawWordsAux true [c] cs
      else rawWordsAux (isWordChar c) [] cs

/-- `re.findall(r'\b[a-zA-Z]+\b', ·)`. -/
def rawWords (l : List Char) : List (List Char) := rawWordsAux false [] l

/-- The title after `re.sub(r'[{}"\x27\x60]', '', title_field)` (removal of
braces, double quotes, apostrophes and backquotes), tokenized by
`rawWords`. -/
def titleWordsOf (title_field : String) : List (List Char) :=
  rawWords (title_field.data.filter
    (fun c => !(c = '\x7b' || c = '\x7d' || c = '"' || c = '\x27' || c = '\x60')))

/-- The filter of the title-word loop: length `> 2` and lower-case form not
in `SKIP_WORDS`. -/
def goodTitleWord (w : List Char) : Bool :=
  w.length > 2 && !(SKIP_WORDS.contains (String.mk (w.map pyLowerChar)))

/-- A word capitalized, as appended by the loop. -/
def capWord (w : List Char) : String := String.mk (pyCapitalizeList w)

/-- Declarative form of the word filter (used to state theorems). -/
def substantialTitleWords (t : String) : List (List Char) :=
  (titleWordsOf t).filter goodTitleWord

/-- The `for word in words` loop of `extract_title_words`: appends the
capitalized substantial words and breaks as soon as `n` were collected. -/
def substantialLoop (n : Nat) : List (List Char) → List String → List String
  | [], acc => acc.reverse
  | w :: rest, acc =>
    if goodTitleWord w then
      let acc2 := capWord w :: acc
      if n ≤ acc2.length then acc2.reverse else substantialLoop n rest acc2
    else substantialLoop n rest acc

/-- `extract_title_words` of `regenerate_keys.py`. -/
def extract_title_words (title_field : String) (n_words : Nat := 3) : String :=
  if title_field = "" then "NoTitle"
  else
    let words := titleWordsOf title_field
    let substantial := substantialLoop n_words words []
    -- if not substantial_words: use first few words regardless
    let substantial2 := if substantial = [] then (words.take n_words).map capWord
                        else substantial
    String.join (substantial2.take n_words)

/-- `generate_citation_key` of `regenerate_keys.py` (the `entry_type`
argument is taken but unused, as in the source). -/
def generate_citation_key (_entry_type : String) (fields : List (String × String)) :
    Option String :=
  match extract_author_lastname ((fields.lookup "author").getD "") with
  | none => none
  | some author =>
    some (author ++ extract_year ((fields.lookup "year").getD "")
                 ++ extract_title_words ((fields.lookup "title").getD "") 3)

/-- Result of `parse_bib_entry`. -/
structure ParsedEntry where
  type : String
  old_key : String
  fields : List (String × String)
  full_text : String
deriving DecidableEq

/-- The anchored header match `re.match(r'@(\w+)\s*\{\s*([^,]+)\s*,', ·)`:
entry type and old key (group 2 is the text before the first comma after the
brace; leading/trailing whitespace is then removed by `.strip()`, which
subsumes the `\s*` parts of the pattern). -/
def matchEntryHeader (l : List Char) : Option (List Char × List Char) :=
  match l with
  | '@' :: r =>
    let ty := r.takeWhile isWordChar
    let r1 := r.dropWhile isWordChar
    if ty = [] then none
    else
      match r1.dropWhile isPyWs with
      | '\x7b' :: r3 =>
        let seg := takeUntilComma r3
        match r3.dropWhile (fun c => c ≠ ',') with
        | ',' :: _ => if seg = [] then none else some (ty, pyStripList seg)
        | _ => none
      | _ => none
  | _ => none

/-- One attempt of the field pattern `(\w+)\s*=\s*[{"]([^}"]*)["}\s]*` at the
head of `l`: on success returns the name, the value, and the rest of the
input after the match (the trailing `["}\s]*` is consumed greedily, which
only affects where the scan resumes). -/
def matchFieldAt (l : List Char) : Option (List Char × List Char × List Char) :=
  let name := l.takeWhile isWordChar
  let r1 := l.dropWhile isWordChar
  if name = [] then none
  else
    match r1.dropWhile isPyWs with
    | '=' :: r3 =>
      match r3.dropWhile isPyWs with
      | c :: r5 =>
        if c = '\x7b' || c = '"' then
          let value := r5.takeWhile (fun d => !(d = '\x7d' || d = '"'))
          let r6 := r5.dropWhile (fun d => !(d = '\x7d' || d = '"'))
          some (name, value, r6.dropWhile (fun d => d = '"' || d = '\x7d' || isPyWs d))
        else none
      | [] => none
    | _ => none

/-- `re.finditer` of the field pattern: scan left to right, collecting
non-overlapping matches; on failure advance one character.  The fuel only
bounds the recursion; every step consumes at least one character, so fuel
equal to the input length (as passed by `findFields`) is never exhausted. -/
def findFieldsAux (fuel : Nat) (l : List Char) : List (List Char × List Char) :=
  match fuel with
  | 0 => []
  | fuel + 1 =>
    match l with
    | [] => []
    | c :: cs =>
      match matchFieldAt (c :: cs) with
      | some (n, v, rest) => (n, v) :: findFieldsAux fuel rest
      | none => findFieldsAux fuel cs

/-- `re.finditer` of the field pattern over the whole entry text. -/
def findFields (l : List Char) : List (List Char × List Char) :=
  findFieldsAux l.length l

/-- Python-dict assignment `m[k] = v`: replace the value in place if the key
is present, otherwise append (insertion order preserved, as for `dict`). -/
def dictUpdate (m : List (String × String)) (k v : String) : List (String × String) :=
  match m with
  | [] => [(k, v)]
  | (k0, v0) :: rest => if k0 = k then (k, v) :: rest else (k0, v0) :: dictUpdate rest k v

/-- The `fields` dict of `parse_bib_entry`: field names lower-cased, later
occurrences of a name overwrite earlier ones. -/
def fieldsOf (l : List Char) : List (String × String) :=
  (findFields l).foldl
    (fun m nv => dictUpdate m (String.mk (nv.1.map pyLowerChar)) (String.mk nv.2)) []

/-- `parse_bib_entry` of `regenerate_keys.py`. -/
def parse_bib_entry (entry_text : String) : Option ParsedEntry :=
  match matchEntryHeader entry_text.data with
  | none => none
  | some (ty, key) =>
    some ⟨String.mk ty, String.mk key, fieldsOf entry_text.data, entry_text⟩

/-- Does the list start an entry, i.e. match the lookahead `(?=@\w+\s*\{)`? -/
def entryStart (l : List Char) : Bool :=
  match l with
  | '@' :: r =>
    !(r.takeWhile isWordChar).isEmpty &&
      (((r.dropWhile isWordChar).dropWhile isPyWs).head? == some '\x7b')
  | _ => false

/-- `re.split(r'(?=@\w+\s*\{)', ·)`: cut immediately before every position
matching the lookahead (an empty first fragment when the text starts with an
entry, exactly as in Python). -/
def splitEntriesAux (cur : List Char) : List Char → List (List Char)
  | [] => [cur.reverse]
  | c :: cs =>
    if entryStart (c :: cs) then cur.reverse :: splitEntriesAux [c] cs
    else splitEntriesAux (c :: cur) cs

/-- `re.split(r'(?=@\w+\s*\{)', ·)`. -/
def splitEntries (l : List Char) : List (List Char) := splitEntriesAux [] l

/-- The `while new_key in key_mapping.values()` loop: try `base`, `base_1`,
`base_2`, ... and return the first candidate not in `used`.  The fuel
`used.length + 2` is enough attempts, since the candidates are pairwise
distinct. -/
def freshKeyAux (base : String) (used : List String) : Nat → Nat → String
  | 0, suffix => base ++ "_" ++ toString suffix
  | fuel + 1, suffix =>
    let cand := if suffix = 0 then base else base ++ "_" ++ toString suffix
    if used.contains cand then freshKeyAux base used fuel (suffix + 1) else cand

/-- Collision resolution of `regenerate_bib_keys`. -/
def freshKey (base : String) (used : List String) : String :=
  freshKeyAux base used (used.length + 2) 0

/-- One attempt of `re.sub(r'(@\w+\s*\{\s*)' + re.escape(old_key), ...)` at
the head of `l`: on success returns the matched prefix (group 1) and the
rest after the old key. -/
def matchKeyPrefix (old : List Char) (l : List Char) : Option (List Char × List Char) :=
  match l with
  | '@' :: r =>
    let w := r.takeWhile isWordChar
    let r1 := r.dropWhile isWordChar
    if w = [] then none
    else
      let ws1 := r1.takeWhile isPyWs
      match r1.dropWhile isPyWs with
      | '\x7b' :: r3 =>
        let ws2 := r3.takeWhile isPyWs
        let r4 := r3.dropWhile isPyWs
        if old.isPrefixOf r4 then
          some ('@' :: w ++ ws1 ++ '\x7b' :: ws2, r4.drop old.length)
        else none
      | _ => none
  | _ => none

/-- The scan of `re.sub(r'(@\w+\s*\{\s*)' + re.escape(old), r'\1' + new, ·)`:
replace every non-overlapping occurrence, resuming after each match.  As in
`findFieldsAux`, every step consumes at least one character, so fuel equal
to the input length is never exhausted. -/
def replaceKeyScanAux (old new : List Char) (fuel : Nat) (l : List Char) : List Char :=
  match fuel with
  | 0 => l
  | fuel + 1 =>
    match l with
    | [] => []
    | c :: cs =>
      match matchKeyPrefix old (c :: cs) with
      | some (pre, rest) => pre ++ new ++ replaceKeyScanAux old new fuel rest
      | none => c :: replaceKeyScanAux old new fuel cs

/-- `re.sub(r'(@\w+\s*\{\s*)' + re.escape(old_key), r'\1' + new_key, text)`. -/
def replaceEntryKey (old_key new_key text : String) : String :=
  String.mk (replaceKeyScanAux old_key.data new_key.data text.data.length text.data)

/-- The body of the `for entry in entries` loop of `regenerate_bib_keys`:
state is the pair (accumulated output, key mapping); `none` models an
uncaught Python exception aborting the run. -/
def processEntry (st : String × List (String × String)) (fragment : String) :
    Option (String × List (String × String)) :=
  let entry := pyStrip fragment
  if entry = "" then some st
  else if entry.data.head? ≠ some '@' then some (st.1 ++ entry ++ "\n\n", st.2)
  else
    match parse_bib_entry entry with
    | none => some (st.1 ++ entry ++ "\n\n", st.2)
    | some p =>
      match generate_citation_key p.type p.fields with
      | none => none
      | some base =>
        let new_key := freshKey base (st.2.map Prod.snd)
        some (st.1 ++ replaceEntryKey p.old_key new_key p.full_text ++ "\n\n",
              dictUpdate st.2 p.old_key new_key)

/-- `regenerate_bib_keys` of `regenerate_keys.py`: returns the rewritten
content and the old-key → new-key mapping, or `none` when the Python code
would raise. -/
def regenerate_bib_keys (bib_content : String) : Option (String × List (String × String)) :=
  (splitEntries bib_content.data).foldlM
    (fun st frag => processEntry st (String.mk frag)) ("", [])

/-! ### `json_to_qmd.py`: content-marker stripper (`convert_model_tags`) -/

/-- The literal `<Model`, start of both Model-tag patterns. -/
def modelLit : List Char := ['<', 'M', 'o', 'd', 'e', 'l']

/-- The literal `</Model>`. -/
def closeLit : List Char := ['<', '/', 'M', 'o', 'd', 'e', 'l', '>']

/-- Position of the earliest occurrence of `</Model>` reachable by `.*?`
(no newline may intervene, since `.` does not match a newline). -/
def findCloser : List Char → Option Nat
  | [] => none
  | c :: cs =>
    if closeLit.isPrefixOf (c :: cs) then some 0
    else if c = '\n' then none
    else (findCloser cs).map (· + 1)

/-- Length of a match of `<Model[^>]*>.*?</Model>` anchored at the head of
`l`, if any: the literal `<Model`, everything up to the first `>` (`[^>]*`
admits no shorter alternative), then the lazy `.*?` up to the earliest
newline-free `</Model>`. -/
def matchClosedLen (l : List Char) : Option Nat :=
  if modelLit.isPrefixOf l then
    let r1 := l.drop 6
    match r1.findIdx? (fun c => c = '>') with
    | some i =>
      match findCloser (r1.drop (i + 1)) with
      | some j => some (6 + (i + 1) + j + 8)
      | none => none
    | none => none
  else none

/-- Length of a match of `<Model[^>]*/?>` anchored at the head of `l`:
the literal `<Model` and everything up to and including the first `>`
(the optional `/` is absorbed by `[^>]*`). -/
def matchOpenLen (l : List Char) : Option Nat :=
  if modelLit.isPrefixOf l then
    match (l.drop 6).findIdx? (fun c => c = '>') with
    | some i => some (6 + i + 1)
    | none => none
  else none

/-- `re.sub(r'<Model[^>]*>.*?</Model>', '', ·)`: remove every
non-overlapping leftmost match, resuming after each match.  A match is at
least one character long, so every step consumes at least one character and
fuel equal to the input length (as passed by `removeModelClosed`) is never
exhausted. -/
def removeModelClosedAux (fuel : Nat) (l : List Char) : List Char :=
  match fuel with
  | 0 => l
  | fuel + 1 =>
    match l with
    | [] => []
    | c :: cs =>
      match matchClosedLen (c :: cs) with
      | some n => removeModelClosedAux fuel ((c :: cs).drop n)
      | none => c :: removeModelClosedAux fuel cs

/-- `re.sub(r'<Model[^>]*>.*?</Model>', '', ·)`. -/
def removeModelClosed (l : List Char) : List Char := removeModelClosedAux l.length l

/-- The scan of `re.sub(r'<Model[^>]*/?>', '', ·)`. -/
def removeModelOpenAux (fuel : Nat) (l : List Char) : List Char :=
  match fuel with
  | 0 => l
  | fuel + 1 =>
    match l with
    | [] => []
    | c :: cs =>
      match matchOpenLen (c :: cs) with
      | some n => removeModelOpenAux fuel ((c :: cs).drop n)
      | none => c :: removeModelOpenAux fuel cs

/-- `re.sub(r'<Model[^>]*/?>', '', ·)`. -/
def removeModelOpen (l : List Char) : List Char := removeModelOpenAux l.length l

/-- Is the head of the list a horizontal-whitespace character? -/
def headIsHoriz : List Char → Bool
  | [] => false
  | c :: _ => isHorizWs c

/-- `re.sub(r'[ \t]{2,}', ' ', ·)`: every maximal run of two or more
horizontal-whitespace characters becomes one space (a lone space or tab is
kept as it is).  Processed right to left: a horizontal-whitespace character
followed by the (already collapsed) head of a horizontal run merges with it
into a single `' '`, which is equivalent to the leftmost-scan of `re.sub`. -/
def collapseWs : List Char → List Char
  | [] => []
  | c :: cs =>
    let r := collapseWs cs
    if isHorizWs c && headIsHoriz r then ' ' :: r.tail
    else c :: r

/-- The punctuation class `[.,;:!?]`. -/
def isPunctC (c : Char) : Bool :=
  c = '.' || c = ',' || c = ';' || c = ':' || c = '!' || c = '?'

/-- Is the head of the list a punctuation character? -/
def headIsPunctC : List Char → Bool
  | [] => false
  | c :: _ => isPunctC c

/-- `re.sub(r'\s+([.,;:!?])', r'\1', ·)`: whitespace immediately preceding a
punctuation character is removed.  Processed right to left: a whitespace
character is dropped exactly when only whitespace (all likewise dropped)
separates it from a following punctuation character, which removes precisely
the maximal `\s+` runs the regex removes. -/
def punctWs : List Char → List Char
  | [] => []
  | c :: cs =>
    let r := punctWs cs
    if isPyWs c && headIsPunctC r then r
    else c :: r

/-- `convert_model_tags` of `json_to_qmd.py`: remove `<Model...>...</Model>`
spans, remove remaining `<Model...>` tags, collapse horizontal whitespace,
drop whitespace before punctuation, and strip the ends. -/
def convert_model_tags (text : String) : String :=
  String.mk (pyStripList (punctWs (collapseWs
    (removeModelOpen (removeModelClosed text.data)))))

/-- Does `<Model` occur anywhere in the list? -/
def hasModel : List Char → Bool
  | [] => false
  | c :: cs => modelLit.isPrefixOf (c :: cs) || hasModel cs

/-- Does `<Model` occur anywhere in the string? -/
def hasModelStr (s : String) : Bool := hasModel s.data

/-! ### `json_to_qmd.py`: citation mapping (`extract_citation_mapping_from_bib`) -/

/-- The anchored key match `re.match(r'@\w+\s*\{\s*([^,\s]+)\s*,', ·)` of
`extract_citation_mapping_from_bib`. -/
def matchCiteKey (l : List Char) : Option (List Char) :=
  match l with
  | '@' :: r =>
    let w := r.takeWhile isWordChar
    let r1 := r.dropWhile isWordChar
    if w = [] then none
    else
      match r1.dropWhile isPyWs with
      | '\x7b' :: r3 =>
        let r4 := r3.dropWhile isPyWs
        let key := r4.takeWhile (fun c => !(isPyWs c || c = ','))
        let r5 := r4.dropWhile (fun c => !(isPyWs c || c = ','))
        if key = [] then none
        else
          match r5.dropWhile isPyWs with
          | ',' :: _ => some key
          | _ => none
      | _ => none
  | _ => none

/-- A match of `author\s*=\s*[{"]([^}"]*)["}]` (case-insensitive `author`)
anchored at the head of `l`, returning the captured value. -/
def matchAuthorAt (l : List Char) : Option (List Char) :=
  if (l.take 6).map pyLowerChar = ['a', 'u', 't', 'h', 'o', 'r'] then
    match (l.drop 6).dropWhile isPyWs with
    | '=' :: r2 =>
      match r2.dropWhile isPyWs with
      | c :: r3 =>
        if c = '\x7b' || c = '"' then
          let v := r3.takeWhile (fun d => !(d = '\x7d' || d = '"'))
          match r3.dropWhile (fun d => !(d = '\x7d' || d = '"')) with
          | _ :: _ => some v
          | [] => none
        else none
      | [] => none
    | _ => none
  else none

/-- `re.search` of the author pattern: first match anywhere in the text. -/
def searchAuthor : List Char → Option (List Char)
  | [] => none
  | c :: cs =>
    match matchAuthorAt (c :: cs) with
    | some v => some v
    | none => searchAuthor cs

/-- A match of `year\s*=\s*[{"]?(\d{4})["}]?` anchored at the head of `l`,
returning the four digits. -/
def matchYearAt (l : List Char) : Option (List Char) :=
  if l.take 4 = ['y', 'e', 'a', 'r'] then
    match (l.drop 4).dropWhile isPyWs with
    | '=' :: r2 =>
      let r3 := r2.dropWhile isPyWs
      let r4 := match r3 with
                | c :: rest => if c = '\x7b' || c = '"' then rest else r3
                | [] => r3
      let four := r4.take 4
      if four.length = 4 && four.all Char.isDigit then some four else none
    | _ => none
  else none

/-- `re.search` of the year pattern. -/
def searchYear : List Char → Option (List Char)
  | [] => none
  | c :: cs =>
    match matchYearAt (c :: cs) with
    | some v => some v
    | none => searchYear cs

/-- The first-author last-name computation of
`extract_citation_mapping_from_bib` (lines 167-178): split on `and`, take
the part before a comma or else the last whitespace-delimited token (empty
when there is none), and keep only `\w` characters.  Unlike
`extract_author_lastname` it removes no braces, never capitalizes, and
guards the empty-token case. -/
def first_author_last (author_field : List Char) : List Char :=
  let fa := pyStripList (firstAndSplit author_field)
  let ln := if fa.contains ',' then pyStripList (takeUntilComma fa)
            else
              match (splitPyWs fa).getLast? with
              | some p => p
              | none => []
  ln.filter isWordChar

/-- The six surface-form variations generated for one entry, each passed
through `.lower().strip()` before insertion. -/
def entryVariants (ln year : String) : List String :=
  [ln ++ year,
   ln ++ "etal" ++ year,
   "(" ++ ln ++ " et al., " ++ year ++ ")",
   "(" ++ ln ++ ", " ++ year ++ ")",
   ln ++ " et al., " ++ year,
   ln ++ ", " ++ year].map (fun v => pyStrip (pyLower v))

/-- Per-entry extraction of `extract_citation_mapping_from_bib`: the
citation key, the raw first-author last name, and the 4-digit year, or
`none` when the entry is skipped (`continue`). -/
def extractEntryData (entry : List Char) : Option (String × String × String) :=
  if pyStripList entry = [] then none
  else if entry.head? ≠ some '@' then none
  else
    match matchCiteKey entry with
    | none => none
    | some key =>
      match searchAuthor entry, searchYear entry with
      | some af, some y =>
        let ln := first_author_last af
        if ln = [] then none
        else some (String.mk key, String.mk ln, String.mk y)
      | _, _ => none

/-- Insertion of one entry's six variations into the mapping
(`citation_mapping[variation.lower().strip()] = cite_key`). -/
def insertEntryVariants (m : List (String × String)) (e : String × String × String) :
    List (String × String) :=
  (entryVariants e.2.1 e.2.2).foldl (fun m v => dictUpdate m v e.1) m

/-- `extract_citation_mapping_from_bib` of `json_to_qmd.py`, on the file's
content (file I/O elided). -/
def extract_citation_mapping (content : String) : List (String × String) :=
  (splitEntries content.data).foldl
    (fun m e =>
      match extractEntryData e with
      | none => m
      | some d => insertEntryVariants m d) []

/-- The entries of the bibliography that contribute variants, in order of
appearance, with their extracted data (declarative counterpart used to state
the last-writer-wins property). -/
def extractedEntries (content : String) : List (String × String × String) :=
  (splitEntries content.data).filterMap extractEntryData

/-! ### `json_to_qmd.py`: citation resolution (`convert_inline_citations`) -/

/-- A parenthesis, for Python `str.strip('()')`. -/
def isParenC (c : Char) : Bool := c = '(' || c = ')'

/-- Python `str.strip('()')`. -/
def pyStripParens (s : String) : String :=
  String.mk (((s.data.dropWhile isParenC).reverse.dropWhile isParenC).reverse)

/-- `\s+` followed by exactly four digits — the mandatory tail
`\s+(\d{4})` of the fallback pattern. -/
def wsDigits (r : List Char) : Option String :=
  let ws := r.takeWhile isPyWs
  let r1 := r.dropWhile isPyWs
  if ws = [] then none
  else
    let four := r1.take 4
    if four.length = 4 && four.all Char.isDigit then some (String.mk four) else none

/-- The optional `,?` of the fallback pattern, then `\s+(\d{4})`;
the greedy branch (comma consumed) is tried first. -/
def afterComma (r : List Char) : Option String :=
  match r with
  | ',' :: r2 =>
    match wsDigits r2 with
    | some y => some y
    | none => wsDigits r
  | _ => wsDigits r

/-- The optional group `(?:\s+et\s+al\.)?` of the fallback pattern:
`\s+`, literal `et`, `\s+`, literal `al.`. -/
def consumeEtAl (r : List Char) : Option (List Char) :=
  let ws := r.takeWhile isPyWs
  let r1 := r.dropWhile isPyWs
  if ws = [] then none
  else
    match r1 with
    | 'e' :: 't' :: r2 =>
      let ws2 := r2.takeWhile isPyWs
      let r3 := r2.dropWhile isPyWs
      if ws2 = [] then none
      else
        match r3 with
        | 'a' :: 'l' :: '.' :: r4 => some r4
        | _ => none
    | _ => none

/-- `re.match(r'(?:\()?([A-Za-z]+)(?:\s+et\s+al\.)?,?\s+(\d{4})(?:\))?', ·)`:
the author run and year, if the fallback pattern matches.  The optional `(`
and the greedy `[A-Za-z]+` admit no useful backtracking (any shorter
author run is followed by a letter, which no later pattern part accepts),
so the scan is deterministic. -/
def matchFallback (s : String) : Option (String × String) :=
  let l := s.data
  let l1 := match l with
            | '(' :: r => r
            | _ => l
  let run := l1.takeWhile isAsciiAlpha
  let r1 := l1.dropWhile isAsciiAlpha
  if run = [] then none
  else
    match (consumeEtAl r1).bind afterComma with
    | some y => some (String.mk run, y)
    | none =>
      match afterComma r1 with
      | some y => some (String.mk run, y)
      | none => none

/-- The `replace_citation` closure of `convert_inline_citations`, applied to
the display text of one citation marker: mapping lookup (exact, then with
surrounding parentheses stripped), then the fallback author-year pattern,
then the sanitized raw string; the resolved key is wrapped as `[@key]`. -/
def resolve_citation (raw : String) (citation_mapping : List (String × String)) : String :=
  let paper_title := pyStrip raw
  let viaMapping : Option String :=
    if citation_mapping = [] then none
    else
      match citation_mapping.lookup (pyStrip (pyLower paper_title)) with
      | some k => some k
      | none => citation_mapping.lookup (pyStrip (pyLower (pyStripParens paper_title)))
  match viaMapping with
  | some k => "[@" ++ k ++ "]"
  | none =>
    match matchFallback paper_title with
    | some (a, y) => "[@" ++ a ++ y ++ "]"
    | none => "[@" ++ String.mk (paper_title.data.filter isWordChar) ++ "]"

/-! ### `json_to_qmd.py`: references summary (`build_bib_entries_summary`) -/

/-- One citation of a section, as read by `build_bib_entries_summary`:
`citation.get('id', '')` is the `id` field, and the `paper` sub-fields are
`Option`s matching `paper.get(..., default)`. -/
structure Citation where
  id : String
  title : Option String
  year : Option String
  venue : Option String
deriving DecidableEq

/-- A section, reduced to the `citations` list the summary reads. -/
structure Sec where
  citations : List Citation
deriving DecidableEq

/-- The body of the citation-collection loop: insert under `citation['id']`
when the id is non-empty and not yet present (first occurrence wins). -/
def citeStep (acc : List (String × Citation)) (c : Citation) : List (String × Citation) :=
  if !(c.id == "") && (acc.lookup c.id).isNone then acc ++ [(c.id, c)] else acc

/-- The `all_citations` dict of `build_bib_entries_summary`. -/
def all_citations (sections : List Sec) : List (String × Citation) :=
  sections.foldl (fun acc sec => sec.citations.foldl citeStep acc) []

/-- `sorted(all_citations.keys())`. -/
def sortedIds (sections : List Sec) : List String :=
  List.insertionSort (fun a b => a ≤ b) ((all_citations sections).map Prod.fst)

/-- The fixed heading of the summary table. -/
def summaryHeader : String :=
  "\n## References Summary\n\n" ++
  "The following sources are cited in this report and detailed in the accompanying \x60.bib\x60 file:\n\n" ++
  "| Citation | Title | Year | Venue |\n" ++
  "|----------|-------|------|-------|\n"

/-- One row of the summary table. -/
def citationRow (citation_mapping : List (String × String)) (cid : String)
    (c : Citation) : String :=
  let title0 := c.title.getD "Unknown Title"
  let title := if title0.length > 60 then title0.take 57 ++ "..." else title0
  let year := c.year.getD "Unknown"
  let venue := c.venue.getD "N/A"
  let cite_key :=
    if citation_mapping ≠ [] then
      (citation_mapping.lookup (pyStrip (pyLower cid))).getD cid
    else
      match matchFallback cid with
      | some (a, y) => a ++ y
      | none => String.mk (cid.data.filter isWordChar)
  "| \x60@" ++ cite_key ++ "\x60 | " ++ title ++ " | " ++ year ++ " | " ++ venue ++ " |\n"

/-- `build_bib_entries_summary` of `json_to_qmd.py`.  The row loop iterates
over the sorted ids and reads the dict; the `getD` default is never reached,
since every sorted id is a key of `all_citations`. -/
def build_bib_entries_summary (sections : List Sec)
    (citation_mapping : List (String × String)) : String :=
  if all_citations sections = [] then ""
  else
    summaryHeader ++ String.join ((sortedIds sections).map (fun cid =>
      citationRow citation_mapping cid
        (((all_citations sections).lookup cid).getD ⟨"", none, none, none⟩)))

/-- The ids of all citations of all sections, in order, empty ids removed
(declarative counterpart for the summary theorems). -/
def nonemptyIds (sections : List Sec) : List String :=
  ((sections.flatMap (fun s => s.citations)).map (fun c => c.id)).filter (fun i => !(i == ""))

/-- First-occurrence de-duplication keeping order of first appearance. -/
def firstDedupAux (seen : List String) : List String → List String
  | [] => []
  | i :: rest =>
    if seen.contains i then firstDedupAux seen rest
    else i :: firstDedupAux (i :: seen) rest

/-- First-occurrence de-duplication. -/
def firstDedup (l : List String) : List String := firstDedupAux [] l

/-- The first citation carrying a given id, across all sections in order. -/
def findFirstCitation (sections : List Sec) (i : String) : Option Citation :=
  (sections.flatMap (fun s => s.citations)).find? (fun c => c.id == i)

/-! ### Auxiliary definitions used in statements -/

/-- Number of positions of `s` at which `pat` occurs as a substring. -/
def countSubstr (s pat : String) : Nat :=
  (s.data.tails.filter (fun t => pat.data.isPrefixOf t)).length

/-- A one-entry bibliography with author `Smith, John`, year `2020` and key
`smith2020paper` (the fixture of the citation-resolution example). -/
def smithBib : String :=
  "@article\x7bsmith2020paper,\n  author = \x7bSmith, John\x7d,\n  year = \x7b2020\x7d,\n  title = \x7bA Paper\x7d\n\x7d\n"

/-- A bibliography of three identical entries that share the old key `k`
(duplicate old keys are legal input; regenerating keys is the tool meant to
clean such files). -/
def tripleDupBib : String :=
  "@a\x7bk,author=\x7bA\x7d,year=\x7b2001\x7d,title=\x7bZ\x7d\x7d\n" ++
  "@a\x7bk,author=\x7bA\x7d,year=\x7b2001\x7d,title=\x7bZ\x7d\x7d\n" ++
  "@a\x7bk,author=\x7bA\x7d,year=\x7b2001\x7d,title=\x7bZ\x7d\x7d"

/-- No two adjacent horizontal-whitespace characters (the state after
collapsing). -/
def noTwoHoriz (l : List Char) : Prop :=
  List.Chain' (fun a b => isHorizWs a = false ∨ isHorizWs b = false) l

/-- No whitespace character immediately before a punctuation character (the
state after the punctuation cleanup). -/
def noWsBeforePunct (l : List Char) : Prop :=
  List.Chain' (fun a b => isPyWs a = false ∨ isPunctC b = false) l

/-! ### Helper lemmas -/

theorem toNat_ofNat_valid (n : Nat) (h : n < 55296) : (Char.ofNat n).toNat = n := by
  simp [Char.ofNat, Nat.isValidChar, h, Char.ofNatAux, Char.toNat, UInt32.toNat,
    UInt32.ofNatCore, BitVec.toNat_ofNatLt]

theorem charLe_iff_toNat (a b : Char) : a ≤ b ↔ a.toNat ≤ b.toNat := by
  rw [Char.le_def]
  exact Iff.rfl

/-- Python lower-casing never produces an upper-case ASCII letter. -/
theorem pyLowerChar_not_upper (c : Char) : isAsciiUpper (pyLowerChar c) = false := by
  unfold pyLowerChar
  by_cases h : isAsciiUpper c = true
  · have hb : 65 ≤ c.toNat ∧ c.toNat ≤ 90 := by
      have := h
      unfold isAsciiUpper at this
      simp only [Bool.and_eq_true, decide_eq_true_eq] at this
      exact ⟨(charLe_iff_toNat 'A' c).mp this.1, (charLe_iff_toNat c 'Z').mp this.2⟩
    have hv : (Char.ofNat (c.toNat + 32)).toNat = c.toNat + 32 :=
      toNat_ofNat_valid _ (by omega)
    simp only [h, if_true]
    unfold isAsciiUpper
    simp only [Bool.and_eq_false_iff, decide_eq_false_iff_not]
    right
    intro hle
    have h2 := (charLe_iff_toNat _ 'Z').mp hle
    have hz : ('Z' : Char).toNat = 90 := by decide
    omega
  · simp only [Bool.not_eq_true] at h
    simp only [h, if_false]
    exact h

/-- The loop of `extract_title_words` collects the first `n - acc.length`
capitalized substantial words. -/
theorem substantialLoop_eq (ws : List (List Char)) :
    ∀ (acc : List String) (n : Nat), acc.length < n →
      substantialLoop n ws acc =
        acc.reverse ++ ((ws.filter goodTitleWord).take (n - acc.length)).map capWord := by
  induction ws with
  | nil => intro acc n _; simp [substantialLoop]
  | cons w rest ih =>
    intro acc n hlt
    unfold substantialLoop
    by_cases hg : goodTitleWord w
    · simp only [hg, if_true, List.filter_cons_of_pos]
      by_cases hn : n ≤ (capWord w :: acc).length
      · have hn1 : n = acc.length + 1 := by
          simp only [List.length_cons] at hn
          omega
        simp only [hn, if_true, hn1]
        have : acc.length + 1 - acc.length = 1 := by omega
        rw [this]
        simp [List.take_one]
      · simp only [hn, if_false]
        rw [ih (capWord w :: acc) n (by simp only [List.length_cons] at hn ⊢; omega)]
        have : n - acc.length = (n - (capWord w :: acc).length) + 1 := by
          simp only [List.length_cons] at hn ⊢
          omega
        rw [this]
        simp [List.take_succ_cons, List.append_assoc]
    · simp only [Bool.not_eq_true] at hg
      rw [List.filter_cons_of_neg (by simp [hg])]
      simp only [hg, Bool.false_eq_true, if_false]
      exact ih acc n hlt

/-! ### Claim theorems -/

/-- C2: `generate_citation_key` on author `"Yancosek, Amy"`, year `"2024"`,
title `"A Beacon: Bayesian Evolutionary Study"` returns exactly
`"Yancosek2024BeaconBayesianEvolutionary"`. -/
theorem generate_citation_key_yancosek :
    generate_citation_key "article"
      [("author", "Yancosek, Amy"), ("year", "2024"),
       ("title", "A Beacon: Bayesian Evolutionary Study")] =
      some "Yancosek2024BeaconBayesianEvolutionary" := by decide

/-- C1 (code bug): on a bibliography whose three entries share the old key
`k` and identical fields, `regenerate_bib_keys` assigns the keys `A2001Z`,
`A2001Z_1` and `A2001Z` again — the rewritten content contains the key
prefix `{A2001Z,` twice, violating batch uniqueness.  The duplicate-check
consults `key_mapping.values()`, and the mapping is keyed by old key, so the
second entry's insertion evicts the first entry's key from the used set. -/
theorem regenerate_duplicate_oldkey_collision :
    (regenerate_bib_keys tripleDupBib).map (fun r => countSubstr r.1 "\x7bA2001Z,") =
      some 2 := by decide

/-- C3 counterexample: the title `"To Be Happy"` tokenizes to fewer than 3
substantial words (just `Happy`), yet `extract_title_words` returns
`"Happy"`, not the first three raw tokens capitalized (`"ToBeHappy"`). -/
theorem extract_title_words_two_substantial_counterexample :
    extract_title_words "To Be Happy" 3 = "Happy" ∧
    String.join (((titleWordsOf "To Be Happy").take 3).map capWord) = "ToBeHappy" := by
  exact ⟨by decide, by decide⟩

/-- C4 counterexample: for author field `"McDonald, Ronald"` the author
component is `"Mcdonald"` — Python `str.capitalize()` lower-cases the
characters after the first, it does not leave their case unchanged. -/
theorem extract_author_lastname_mcdonald_counterexample :
    extract_author_lastname "McDonald, Ronald" = some "Mcdonald" ∧
    ("Mcdonald" : String) ≠ "McDonald" := by
  exact ⟨by decide, by decide⟩

/-- C5: over the variant table of `smithBib` (author `Smith, John`, year
`2020`, key `smith2020paper`), the marker `"(Smith et al., 2020)"` resolves
to the real key `smith2020paper` and the unmatched marker `"(Doe, 2019)"`
resolves to the synthesized key `Doe2019`. -/
theorem resolve_citation_smith_doe :
    resolve_citation "(Smith et al., 2020)" (extract_citation_mapping smithBib) =
      "[@smith2020paper]" ∧
    resolve_citation "(Doe, 2019)" (extract_citation_mapping smithBib) =
      "[@Doe2019]" := by
  exact ⟨by decide, by decide⟩

/-- C8 counterexample: the content-marker stripper is not idempotent.
Stripping `"<Mod<Model x>el y>"` removes the inner `<Model x>` and thereby
splices together the new tag `"<Model y>"`, which only a second pass
removes. -/
theorem convert_model_tags_not_idempotent :
    convert_model_tags (convert_model_tags "<Mod<Model x>el y>") ≠
      convert_model_tags "<Mod<Model x>el y>" := by decide

/-- C9 counterexample: the input `"a\n."` contains no marker at all, yet its
line break is not present in the output — the whitespace removed before
punctuation by `re.sub(r'\s+([.,;:!?])', ...)` includes line breaks. -/
theorem convert_model_tags_drops_newline_before_punct :
    hasModelStr "a\n." = false ∧
    ("a\n." : String).data.count '\n' = 1 ∧
    (convert_model_tags "a\n.").data.count '\n' = 0 := by
  exact ⟨by decide, by decide, by decide⟩

/-- C10 counterexample: one citation is present but carries the empty id, so
the summary contains no row for it at all (the function returns `""`),
contradicting "exactly one row per distinct citation id". -/
theorem build_bib_summary_empty_id_counterexample :
    (([⟨[⟨"", some "T", some "2020", some "V"⟩]⟩] : List Sec).flatMap
        (fun s => s.citations)).length = 1 ∧
    build_bib_entries_summary [⟨[⟨"", some "T", some "2020", some "V"⟩]⟩] [] = "" := by
  exact ⟨by decide, by decide⟩

/-- C7: a fragment of the split whose stripped text does not begin with `@`,
or fails the `@type{key, ...}` header match, is appended to the output
verbatim (followed by a blank line, and dropped entirely only when it is
pure whitespace); the key mapping is unchanged and the step cannot abort
(it never returns `none`). -/
theorem processEntry_passthrough (st : String × List (String × String)) (f : String)
    (h : (pyStrip f).data.head? ≠ some '@' ∨ parse_bib_entry (pyStrip f) = none) :
    processEntry st f =
      some (st.1 ++ (if pyStrip f = "" then "" else pyStrip f ++ "\n\n"), st.2) := by
  by_cases he : pyStrip f = ""
  · simp only [processEntry, he, if_pos, if_true]
    cases st
    simp
  · rcases h with h | h
    · simp [processEntry, he, h, String.append_assoc]
    · by_cases ha : (pyStrip f).data.head? = some '@'
      · simp [processEntry, he, ha, h, String.append_assoc]
      · simp [processEntry, he, ha, String.append_assoc]

/-- Witness for C7 at the fragment `"junk"`. -/
theorem processEntry_passthrough_witness :
    processEntry ("", []) "junk" = some ("junk\n\n", ([] : List (String × String))) := by
  rw [processEntry_passthrough ("", []) "junk" (Or.inl (by decide))]
  decide

/-- C3 (amended): for a non-empty title, the fallback to the first 3 raw
tokens applies only when *zero* substantial words remain; when 1 or more
substantial words exist, the result is just the first (up to 3) substantial
words capitalized — in particular with 1 or 2 substantial words there is no
fallback to raw tokens. -/
theorem extract_title_words_fallback_only_when_none (t : String) (ht : t ≠ "") :
    (substantialTitleWords t = [] →
      extract_title_words t 3 = String.join (((titleWordsOf t).take 3).map capWord)) ∧
    (substantialTitleWords t ≠ [] →
      extract_title_words t 3 = String.join (((substantialTitleWords t).take 3).map capWord)) := by
  have hloop : substantialLoop 3 (titleWordsOf t) [] =
      ((substantialTitleWords t).take 3).map capWord := by
    have h := substantialLoop_eq (titleWordsOf t) [] 3 (by simp)
    simpa [substantialTitleWords] using h
  have hjoin : ∀ (ws : List (List Char)),
      String.join (((ws.take 3).map capWord).take 3) = String.join ((ws.take 3).map capWord) := by
    intro ws
    rw [← List.map_take, List.take_take]
    simp
  constructor
  · intro hsub
    unfold extract_title_words
    rw [if_neg ht]
    dsimp only
    rw [hloop, hsub]
    simp only [List.take_nil, List.map_nil, if_pos rfl]
    exact hjoin (titleWordsOf t)
  · intro hsub
    unfold extract_title_words
    rw [if_neg ht]
    dsimp only
    rw [hloop]
    rw [if_neg (by simp [List.take_eq_nil_iff, hsub])]
    exact hjoin (substantialTitleWords t)

/-- Witness for C3 at the title `"To Be"` (zero substantial words): the
fallback applies and yields `"ToBe"`. -/
theorem extract_title_words_fallback_witness :
    extract_title_words "To Be" 3 = String.join (((titleWordsOf "To Be").take 3).map capWord) ∧
    extract_title_words "To Be" 3 = "ToBe" := by
  constructor
  · exact (extract_title_words_fallback_only_when_none "To Be" (by decide)).1 (by decide)
  · decide

/-- C4 (amended): whenever `extract_author_lastname` returns a value, every
character after the first is not an upper-case ASCII letter — Python
`str.capitalize()` lower-cases the tail instead of leaving its case
unchanged. -/
theorem extract_author_lastname_tail_not_upper (a r : String)
    (h : extract_author_lastname a = some r) :
    (r.data.drop 1).all (fun c => !(isAsciiUpper c)) = true := by
  unfold extract_author_lastname at h
  split at h
  · simp only [Option.some.injEq] at h
    subst h
    decide
  · dsimp only at h
    split at h
    · exact absurd h (by simp)
    · rename_i lastname heq
      simp only [Option.some.injEq] at h
      subst h
      show (((pyCapitalizeList (lastname.filter isWordChar))).drop 1).all
        (fun c => !(isAsciiUpper c)) = true
      cases lastname.filter isWordChar with
      | nil => decide
      | cons c cs =>
        simp only [pyCapitalizeList, List.drop_succ_cons, List.drop_zero]
        rw [List.all_eq_true]
        intro x hx
        rw [List.mem_map] at hx
        obtain ⟨y, -, rfl⟩ := hx
        simp [pyLowerChar_not_upper]

/-- Witness for C4: `extract_author_lastname "McDonald, Ronald"` yields
`"Mcdonald"`, whose tail has no upper-case letter. -/
theorem extract_author_lastname_tail_witness :
    ((("Mcdonald" : String).data.drop 1).all (fun c => !(isAsciiUpper c)) = true) :=
  extract_author_lastname_tail_not_upper "McDonald, Ronald" "Mcdonald" (by decide)

theorem lookup_dictUpdate_self (m : List (String × String)) (k v : String) :
    (dictUpdate m k v).lookup k = some v := by
  induction m with
  | nil => simp [dictUpdate, List.lookup]
  | cons p rest ih =>
    obtain ⟨k0, v0⟩ := p
    unfold dictUpdate
    by_cases hk : k0 = k
    · simp [hk, List.lookup]
    · have hbeq : (k == k0) = false := by
        simp only [beq_eq_false_iff_ne, ne_eq]
        exact fun h => hk h.symm
      simp only [hk, if_false, List.lookup, hbeq]
      exact ih

theorem lookup_dictUpdate_ne (m : List (String × String)) (k v x : String) (hx : x ≠ k) :
    (dictUpdate m k v).lookup x = m.lookup x := by
  have hbeq : (x == k) = false := by simpa using hx
  induction m with
  | nil => simp [dictUpdate, List.lookup, hbeq]
  | cons p rest ih =>
    obtain ⟨k0, v0⟩ := p
    unfold dictUpdate
    by_cases hk : k0 = k
    · subst hk
      simp [List.lookup, hbeq]
    · simp only [hk, if_false, List.lookup]
      cases hxk : (x == k0) <;> simp [ih]

theorem lookup_insert_variants (vs : List String) (k : String) :
    ∀ (m : List (String × String)) (v : String),
      ((vs.foldl (fun m v2 => dictUpdate m v2 k) m).lookup v) =
        if vs.contains v then some k else m.lookup v := by
  induction vs with
  | nil => intro m v; simp
  | cons v2 rest ih =>
    intro m v
    simp only [List.foldl_cons, List.contains_cons]
    rw [ih (dictUpdate m v2 k) v]
    by_cases hr : v ∈ rest
    · have hrc : rest.contains v = true := by simpa using hr
      simp [hr, hrc]
    · have hrc : rest.contains v = false := by simpa using hr
      by_cases hvv : v = v2
      · subst hvv
        simp [hrc, lookup_dictUpdate_self]
      · have hbeq : (v == v2) = false := by simpa using hvv
        simp [hrc, hbeq, lookup_dictUpdate_ne m v2 k v hvv]

theorem lookup_mapping_fold (frs : List (List Char)) :
    ∀ (m : List (String × String)) (v : String),
      ((frs.foldl
          (fun m e =>
            match extractEntryData e with
            | none => m
            | some d => insertEntryVariants m d) m).lookup v) =
        match (frs.filterMap extractEntryData).reverse.find?
            (fun d => (entryVariants d.2.1 d.2.2).contains v) with
        | some d => some d.1
        | none => m.lookup v := by
  induction frs with
  | nil => intro m v; simp
  | cons f rest ih =>
    intro m v
    simp only [List.foldl_cons, List.filterMap_cons]
    cases hf : extractEntryData f with
    | none =>
      simp only [hf]
      exact ih m v
    | some d =>
      simp only [hf]
      rw [ih (insertEntryVariants m d) v, List.reverse_cons, List.find?_append]
      cases hfind : (rest.filterMap extractEntryData).reverse.find?
          (fun d => (entryVariants d.2.1 d.2.2).contains v) with
      | some d2 => simp
      | none =>
        simp only [Option.none_or]
        unfold insertEntryVariants
        rw [lookup_insert_variants]
        by_cases hv : v ∈ entryVariants d.2.1 d.2.2
        · have hvc : (entryVariants d.2.1 d.2.2).contains v = true := by simpa using hv
          simp [List.find?, hv, hvc]
        · have hvc : (entryVariants d.2.1 d.2.2).contains v = false := by simpa using hv
          simp [List.find?, hv, hvc]

/-- C6: the variant table built from a bibliography maps a lookup string `v`
to the key of the *last* entry (in order of appearance) among those whose
six generated surface forms contain `v` — so every variant of an entry maps
to that entry's key unless a later entry produces the same variant string,
in which case the later entry's key silently overwrites it. -/
theorem extract_citation_mapping_last_writer_wins (content : String) (v : String) :
    (extract_citation_mapping content).lookup v =
      ((extractedEntries content).reverse.find?
        (fun d => (entryVariants d.2.1 d.2.2).contains v)).map (fun d => d.1) := by
  unfold extract_citation_mapping extractedEntries
  rw [lookup_mapping_fold]
  cases hfind : ((splitEntries content.data).filterMap extractEntryData).reverse.find?
      (fun d => (entryVariants d.2.1 d.2.2).contains v) with
  | some d => simp
  | none => simp [List.lookup]

theorem firstDedupAux_congr (l : List String) :
    ∀ (s1 s2 : List String), (∀ x, x ∈ s1 ↔ x ∈ s2) →
      firstDedupAux s1 l = firstDedupAux s2 l := by
  induction l with
  | nil => intro _ _ _; rfl
  | cons i rest ih =>
    intro s1 s2 h
    unfold firstDedupAux
    by_cases hc : i ∈ s2
    · have h1 : s1.contains i = true := by simpa using (h i).mpr hc
      have h2 : s2.contains i = true := by simpa using hc
      rw [h1, h2]
      simpa using ih s1 s2 h
    · have h1 : s1.contains i = false := by
        have hn : i ∉ s1 := fun hm => hc ((h i).mp hm)
        simpa using hn
      have h2 : s2.contains i = false := by simpa using hc
      rw [h1, h2]
      simp only [Bool.false_eq_true, if_false]
      rw [ih (i :: s1) (i :: s2) (by intro x; simp [h x])]

theorem lookup_isNone_iff_keys (acc : List (String × Citation)) (i : String) :
    (acc.lookup i).isNone = !((acc.map Prod.fst).contains i) := by
  induction acc with
  | nil => rfl
  | cons p rest ih =>
    obtain ⟨k, c⟩ := p
    simp only [List.lookup, List.map_cons, List.contains_cons]
    cases h : (i == k) <;> simp [h, ih]

theorem lookup_append_or (l1 l2 : List (String × Citation)) (a : String) :
    (l1 ++ l2).lookup a = ((l1.lookup a).or (l2.lookup a)) := by
  induction l1 with
  | nil => simp
  | cons p rest ih =>
    obtain ⟨k, v⟩ := p
    simp only [List.cons_append, List.lookup]
    cases h : (a == k) <;> simp [ih]

theorem keys_citeFold (cs : List Citation) :
    ∀ (acc : List (String × Citation)),
      ((cs.foldl citeStep acc).map Prod.fst) =
        acc.map Prod.fst ++
          firstDedupAux (acc.map Prod.fst)
            ((cs.map (fun c => c.id)).filter (fun i => !(i == ""))) := by
  induction cs with
  | nil => intro acc; simp [firstDedupAux]
  | cons c rest ih =>
    intro acc
    simp only [List.foldl_cons, List.map_cons]
    by_cases hid : c.id = ""
    · have h1 : (c.id == "") = true := by simpa using hid
      have hstep : citeStep acc c = acc := by
        unfold citeStep
        simp [h1]
      rw [hstep, ih acc, List.filter_cons_of_neg (by simp [h1])]
    · have h1 : (c.id == "") = false := by simpa using hid
      rw [List.filter_cons_of_pos (by simp [h1])]
      by_cases hmem : (acc.map Prod.fst).contains c.id = true
      · have h2 : (acc.lookup c.id).isNone = false := by
          rw [lookup_isNone_iff_keys, hmem]
          rfl
        have hstep : citeStep acc c = acc := by
          unfold citeStep
          simp [h2]
        rw [hstep, ih acc]
        have hd : firstDedupAux (acc.map Prod.fst)
            (c.id :: (rest.map (fun c => c.id)).filter (fun i => !(i == ""))) =
            firstDedupAux (acc.map Prod.fst)
              ((rest.map (fun c => c.id)).filter (fun i => !(i == ""))) := by
          show (if (acc.map Prod.fst).contains c.id then _ else _) = _
          rw [hmem]
          simp
        rw [hd]
      · have hmf : (acc.map Prod.fst).contains c.id = false := by
          cases hb : (acc.map Prod.fst).contains c.id
          · rfl
          · exact absurd hb hmem
        have h2 : (acc.lookup c.id).isNone = true := by
          rw [lookup_isNone_iff_keys, hmf]
          rfl
        have hstep : citeStep acc c = acc ++ [(c.id, c)] := by
          unfold citeStep
          simp [h1, h2]
        rw [hstep, ih (acc ++ [(c.id, c)])]
        simp only [List.map_append, List.map_cons, List.map_nil]
        have hd : firstDedupAux (acc.map Prod.fst)
            (c.id :: (rest.map (fun c => c.id)).filter (fun i => !(i == ""))) =
            c.id :: firstDedupAux (c.id :: acc.map Prod.fst)
              ((rest.map (fun c => c.id)).filter (fun i => !(i == ""))) := by
          show (if (acc.map Prod.fst).contains c.id then _ else _) = _
          rw [hmf]
          simp
        rw [hd]
        rw [firstDedupAux_congr _ (acc.map Prod.fst ++ [c.id]) (c.id :: acc.map Prod.fst)
          (by intro x; simp [or_comm])]
        simp

theorem mem_citeFold (cs : List Citation) :
    ∀ (acc : List (String × Citation)) (i : String) (c : Citation),
      (i, c) ∈ cs.foldl citeStep acc →
      (i, c) ∈ acc ∨
        (acc.lookup i = none ∧ i ≠ "" ∧ cs.find? (fun d => d.id == i) = some c) := by
  induction cs with
  | nil => intro acc i c h; exact Or.inl h
  | cons d rest ih =>
    intro acc i c h
    simp only [List.foldl_cons] at h
    rcases ih (citeStep acc d) i c h with hmem | ⟨hnone, hne, hfind⟩
    · unfold citeStep at hmem
      by_cases hcond : (!(d.id == "") && (acc.lookup d.id).isNone) = true
      · rw [if_pos hcond] at hmem
        rcases List.mem_append.mp hmem with hml | hmr
        · exact Or.inl hml
        · simp only [List.mem_singleton, Prod.mk.injEq] at hmr
          obtain ⟨hi, hc⟩ := hmr
          subst hi
          subst hc
          simp only [Bool.and_eq_true, Bool.not_eq_true', beq_eq_false_iff_ne, ne_eq,
            Option.isNone_iff_eq_none] at hcond
          refine Or.inr ⟨hcond.2, hcond.1, ?_⟩
          simp [List.find?]
      · rw [if_neg hcond] at hmem
        exact Or.inl hmem
    · have haccnone : acc.lookup i = none := by
        unfold citeStep at hnone
        by_cases hcond : (!(d.id == "") && (acc.lookup d.id).isNone) = true
        · rw [if_pos hcond] at hnone
          rw [lookup_append_or] at hnone
          cases hal : acc.lookup i with
          | none => rfl
          | some w => rw [hal] at hnone; simp at hnone
        · rw [if_neg hcond] at hnone
          exact hnone
      have hdid : (d.id == i) = false := by
        simp only [beq_eq_false_iff_ne, ne_eq]
        intro he
        by_cases hid0 : d.id = ""
        · exact hne (he ▸ hid0)
        · have h1 : (d.id == "") = false := by simpa using hid0
          have h2 : (acc.lookup d.id).isNone = true := by
            rw [he, haccnone]
            rfl
          have hstep : citeStep acc d = acc ++ [(d.id, d)] := by
            unfold citeStep
            simp [h1, h2]
          rw [hstep, lookup_append_or, he, haccnone] at hnone
          simp only [Option.none_or] at hnone
          rw [← he] at hnone
          simp [List.lookup] at hnone
      refine Or.inr ⟨haccnone, hne, ?_⟩
      simp [List.find?, hdid, hfind]

theorem all_citations_eq_flat (sections : List Sec) :
    all_citations sections = (sections.flatMap (fun s => s.citations)).foldl citeStep [] := by
  suffices h : ∀ (ss : List Sec) (acc),
      ss.foldl (fun acc sec => sec.citations.foldl citeStep acc) acc =
        (ss.flatMap (fun s => s.citations)).foldl citeStep acc from h sections []
  intro ss
  induction ss with
  | nil => intro acc; simp
  | cons s rest ih =>
    intro acc
    simp [List.flatMap_cons, List.foldl_append, ih]

/-- C10 (amended): the summary collects exactly one row per distinct
*non-empty* citation id, in order of first appearance (`firstDedup`), using
the data of the first citation carrying that id; the row ids are sorted
lexicographically; and when no citation has a non-empty id the function
returns the empty string (citations with an empty or missing id are
ignored). -/
theorem build_bib_summary_spec (sections : List Sec) (mapping : List (String × String)) :
    (all_citations sections).map Prod.fst = firstDedup (nonemptyIds sections) ∧
    (∀ i c, (i, c) ∈ all_citations sections → findFirstCitation sections i = some c) ∧
    List.Sorted (fun a b => a ≤ b) (sortedIds sections) ∧
    (nonemptyIds sections = [] → build_bib_entries_summary sections mapping = "") := by
  have hflat := all_citations_eq_flat sections
  have hkeys : (all_citations sections).map Prod.fst = firstDedup (nonemptyIds sections) := by
    rw [hflat, keys_citeFold]
    simp only [List.map_nil, List.nil_append]
    rfl
  refine ⟨hkeys, ?_, ?_, ?_⟩
  · intro i c hm
    rw [hflat] at hm
    rcases mem_citeFold _ [] i c hm with h0 | ⟨-, -, hfind⟩
    · exact absurd h0 (List.not_mem_nil _)
    · exact hfind
  · exact List.sorted_insertionSort _ _
  · intro hids
    have h1 : (all_citations sections).map Prod.fst = [] := by
      rw [hkeys, hids]
      rfl
    have h2 : all_citations sections = [] := by
      cases hac : all_citations sections with
      | nil => rfl
      | cons p r => rw [hac] at h1; simp at h1
    unfold build_bib_entries_summary
    rw [if_pos h2]

/-- Witness for C10: in a section whose citations are ids `b`, `a`, `b`
(the second `b` with different data), the collected entry for `b` is the
first `b` citation. -/
theorem build_bib_summary_witness :
    findFirstCitation
        [⟨[⟨"b", some "T1", none, none⟩, ⟨"a", some "T2", none, none⟩,
           ⟨"b", some "X", none, none⟩]⟩] "b" = some ⟨"b", some "T1", none, none⟩ :=
  (build_bib_summary_spec
    [⟨[⟨"b", some "T1", none, none⟩, ⟨"a", some "T2", none, none⟩,
       ⟨"b", some "X", none, none⟩]⟩] []).2.1 "b" ⟨"b", some "T1", none, none⟩ (by decide)

theorem matchClosedLen_eq_none (l : List Char) (h : modelLit.isPrefixOf l = false) :
    matchClosedLen l = none := by
  unfold matchClosedLen
  rw [h]
  simp

theorem matchOpenLen_eq_none (l : List Char) (h : modelLit.isPrefixOf l = false) :
    matchOpenLen l = none := by
  unfold matchOpenLen
  rw [h]
  simp

theorem hasModel_cons_false (c : Char) (cs : List Char) (h : hasModel (c :: cs) = false) :
    modelLit.isPrefixOf (c :: cs) = false ∧ hasModel cs = false := by
  unfold hasModel at h
  simp only [Bool.or_eq_false_iff] at h
  exact h

theorem removeModelClosedAux_id (fuel : Nat) :
    ∀ (l : List Char), hasModel l = false → removeModelClosedAux fuel l = l := by
  induction fuel with
  | zero => intro l _; rfl
  | succ n ih =>
    intro l h
    cases l with
    | nil => rfl
    | cons c cs =>
      obtain ⟨h1, h2⟩ := hasModel_cons_false c cs h
      simp only [removeModelClosedAux, matchClosedLen_eq_none _ h1, ih cs h2]

theorem removeModelOpenAux_id (fuel : Nat) :
    ∀ (l : List Char), hasModel l = false → removeModelOpenAux fuel l = l := by
  induction fuel with
  | zero => intro l _; rfl
  | succ n ih =>
    intro l h
    cases l with
    | nil => rfl
    | cons c cs =>
      obtain ⟨h1, h2⟩ := hasModel_cons_false c cs h
      simp only [removeModelOpenAux, matchOpenLen_eq_none _ h1, ih cs h2]

theorem removeModelClosed_id (l : List Char) (h : hasModel l = false) :
    removeModelClosed l = l := removeModelClosedAux_id _ _ h

theorem removeModelOpen_id (l : List Char) (h : hasModel l = false) :
    removeModelOpen l = l := removeModelOpenAux_id _ _ h

theorem collapseWs_cons (c : Char) (cs : List Char) :
    collapseWs (c :: cs) =
      if isHorizWs c && headIsHoriz (collapseWs cs) then ' ' :: (collapseWs cs).tail
      else c :: collapseWs cs := rfl

theorem punctWs_cons (c : Char) (cs : List Char) :
    punctWs (c :: cs) =
      if isPyWs c && headIsPunctC (punctWs cs) then punctWs cs
      else c :: punctWs cs := rfl

theorem punct_not_horiz (z : Char) (h : isPunctC z = true) : isHorizWs z = false := by
  simp only [isPunctC, Bool.or_eq_true, decide_eq_true_eq] at h
  rcases h with ((((rfl | rfl) | rfl) | rfl) | rfl) | rfl <;> rfl

theorem collapseWs_noTwoHoriz (l : List Char) : noTwoHoriz (collapseWs l) := by
  induction l with
  | nil => exact List.chain'_nil
  | cons c cs ih =>
    rw [collapseWs_cons]
    cases hcond : (isHorizWs c && headIsHoriz (collapseWs cs)) with
    | true =>
      rw [if_pos rfl]
      have hh : headIsHoriz (collapseWs cs) = true := by
        have h0 := hcond
        simp only [Bool.and_eq_true] at h0
        exact h0.2
      cases hr : collapseWs cs with
      | nil => rw [hr] at hh; exact absurd hh (by simp [headIsHoriz])
      | cons z t =>
        rw [hr] at ih
        simp only [List.tail_cons]
        rw [noTwoHoriz, List.chain'_cons']
        refine ⟨?_, (List.chain'_cons'.mp ih).2⟩
        intro y hy
        have hzh : isHorizWs z = true := by
          rw [hr] at hh
          simpa [headIsHoriz] using hh
        rcases (List.chain'_cons'.mp ih).1 y hy with h1 | h1
        · rw [hzh] at h1
          simp at h1
        · exact Or.inr h1
    | false =>
      rw [if_neg (by simp)]
      rw [noTwoHoriz, List.chain'_cons']
      refine ⟨?_, ih⟩
      intro y hy
      rcases Bool.and_eq_false_iff.mp hcond with h1 | h1
      · exact Or.inl h1
      · right
        cases hr : collapseWs cs with
        | nil => rw [hr] at hy; simp at hy
        | cons z t =>
          rw [hr] at hy h1
          have hyz : z = y := by simpa using hy
          subst hyz
          simpa [headIsHoriz] using h1

theorem collapseWs_id_of_noTwoHoriz (l : List Char) (h : noTwoHoriz l) :
    collapseWs l = l := by
  induction l with
  | nil => rfl
  | cons c cs ih =>
    have hcs : noTwoHoriz cs := (List.chain'_cons'.mp h).2
    rw [collapseWs_cons, ih hcs]
    cases hc : isHorizWs c with
    | false => simp
    | true =>
      cases cs with
      | nil => simp [headIsHoriz]
      | cons y t =>
        rcases (List.chain'_cons'.mp h).1 y (by simp) with h1 | h1
        · rw [hc] at h1
          simp at h1
        · simp [headIsHoriz, h1]

theorem punctWs_head (d : Char) (ds : List Char) :
    (punctWs (d :: ds)).head? = some d ∨ headIsPunctC (punctWs (d :: ds)) = true := by
  rw [punctWs_cons]
  cases hcond : (isPyWs d && headIsPunctC (punctWs ds)) with
  | true =>
    right
    rw [if_pos rfl]
    have h0 := hcond
    simp only [Bool.and_eq_true] at h0
    exact h0.2
  | false =>
    left
    rw [if_neg (by simp)]
    rfl

theorem punctWs_noTwoHoriz (l : List Char) (h : noTwoHoriz l) :
    noTwoHoriz (punctWs l) := by
  induction l with
  | nil => exact List.chain'_nil
  | cons c cs ih =>
    have hcs : noTwoHoriz cs := (List.chain'_cons'.mp h).2
    have ihcs := ih hcs
    rw [punctWs_cons]
    cases hcond : (isPyWs c && headIsPunctC (punctWs cs)) with
    | true =>
      rw [if_pos rfl]
      exact ihcs
    | false =>
      rw [if_neg (by simp)]
      rw [noTwoHoriz, List.chain'_cons']
      refine ⟨?_, ihcs⟩
      intro y hy
      cases hhc : isHorizWs c with
      | false => exact Or.inl rfl
      | true =>
        right
        cases cs with
        | nil => simp [punctWs] at hy
        | cons d ds =>
          rcases punctWs_head d ds with hh | hh
          · have hy2 : d = y := by
              rw [hh] at hy
              simpa using hy
            subst hy2
            rcases (List.chain'_cons'.mp h).1 d (by simp) with h1 | h1
            · rw [hhc] at h1
              simp at h1
            · exact h1
          · cases hpw : punctWs (d :: ds) with
            | nil => rw [hpw] at hy; simp at hy
            | cons z t =>
              rw [hpw] at hy hh
              have hyz : z = y := by simpa using hy
              subst hyz
              exact punct_not_horiz z (by simpa [headIsPunctC] using hh)

theorem punctWs_noWsBeforePunct (l : List Char) : noWsBeforePunct (punctWs l) := by
  induction l with
  | nil => exact List.chain'_nil
  | cons c cs ih =>
    rw [punctWs_cons]
    cases hcond : (isPyWs c && headIsPunctC (punctWs cs)) with
    | true =>
      rw [if_pos rfl]
      exact ih
    | false =>
      rw [if_neg (by simp)]
      rw [noWsBeforePunct, List.chain'_cons']
      refine ⟨?_, ih⟩
      intro y hy
      cases hpc : isPyWs c with
      | false => exact Or.inl rfl
      | true =>
        right
        have hh : headIsPunctC (punctWs cs) = false := by
          rw [hpc] at hcond
          simpa using hcond
        cases hpw : punctWs cs with
        | nil => rw [hpw] at hy; simp at hy
        | cons z t =>
          rw [hpw] at hy hh
          have hyz : z = y := by simpa using hy
          subst hyz
          simpa [headIsPunctC] using hh

theorem punctWs_id_of_noWsBeforePunct (l : List Char) (h : noWsBeforePunct l) :
    punctWs l = l := by
  induction l with
  | nil => rfl
  | cons c cs ih =>
    have hcs : noWsBeforePunct cs := (List.chain'_cons'.mp h).2
    rw [punctWs_cons, ih hcs]
    cases hpc : isPyWs c with
    | false => simp
    | true =>
      cases cs with
      | nil => simp [headIsPunctC]
      | cons y t =>
        rcases (List.chain'_cons'.mp h).1 y (by simp) with h1 | h1
        · rw [hpc] at h1
          simp at h1
        · simp [headIsPunctC, h1]

theorem chain'_dropWhile {R : Char → Char → Prop} (p : Char → Bool) (l : List Char)
    (h : List.Chain' R l) : List.Chain' R (l.dropWhile p) := by
  induction l with
  | nil => exact h
  | cons c cs ih =>
    rw [List.dropWhile_cons]
    cases hp : p c with
    | true =>
      simp only [if_true]
      exact ih ((List.chain'_cons'.mp h).2)
    | false =>
      simp only [Bool.false_eq_true, if_false]
      exact h

theorem chain'_pyStripList {R : Char → Char → Prop} (l : List Char)
    (h : List.Chain' R l) : List.Chain' R (pyStripList l) := by
  unfold pyStripList
  have h1 : List.Chain' R (l.dropWhile isPyWs) := chain'_dropWhile _ _ h
  have h2 : List.Chain' (flip R) ((l.dropWhile isPyWs).reverse) := by
    rw [List.chain'_reverse]
    exact h1
  have h3 := chain'_dropWhile (R := flip R) isPyWs _ h2
  rw [List.chain'_reverse]
  exact h3

theorem dropWhile_head_not (p : Char → Bool) (l : List Char) :
    ∀ c, (l.dropWhile p).head? = some c → p c = false := by
  induction l with
  | nil => intro c h; simp at h
  | cons d ds ih =>
    intro c h
    rw [List.dropWhile_cons] at h
    by_cases hp : p d = true
    · rw [if_pos hp] at h
      exact ih c h
    · rw [if_neg hp] at h
      simp only [List.head?_cons, Option.some.injEq] at h
      rw [← h]
      cases hpd : p d
      · rfl
      · exact absurd hpd hp

theorem dropWhile_eq_self_of_head (p : Char → Bool) (l : List Char)
    (h : ∀ c, l.head? = some c → p c = false) : l.dropWhile p = l := by
  cases l with
  | nil => rfl
  | cons d ds =>
    have hpd := h d rfl
    rw [List.dropWhile_cons]
    simp [hpd]

theorem stripR_prefix (p : Char → Bool) (x : List Char) :
    ((x.reverse.dropWhile p).reverse) <+: x := by
  have h1 : x.reverse.dropWhile p <:+ x.reverse := List.dropWhile_suffix p
  simpa using List.reverse_prefix.mpr h1

theorem isPrefix_head_eq {l1 l2 : List Char} (h : l1 <+: l2) (hne : l1 ≠ []) :
    l2.head? = l1.head? := by
  obtain ⟨t, rfl⟩ := h
  cases l1 with
  | nil => exact absurd rfl hne
  | cons a as => rfl

theorem pyStripList_eq_self (m : List Char)
    (hhead : ∀ c, m.head? = some c → isPyWs c = false)
    (hlast : ∀ c, m.getLast? = some c → isPyWs c = false) : pyStripList m = m := by
  unfold pyStripList
  rw [dropWhile_eq_self_of_head isPyWs m hhead]
  rw [dropWhile_eq_self_of_head isPyWs m.reverse
    (fun c hc => hlast c (by rwa [List.head?_reverse] at hc))]
  exact List.reverse_reverse m

theorem pyStripList_idem (l : List Char) : pyStripList (pyStripList l) = pyStripList l := by
  by_cases hBnil : pyStripList l = []
  · rw [hBnil]
    rfl
  · have hBA : pyStripList l <+: (l.dropWhile isPyWs) := stripR_prefix isPyWs (l.dropWhile isPyWs)
    have hhead : ∀ c, (pyStripList l).head? = some c → isPyWs c = false := by
      intro c hc
      have h1 : (l.dropWhile isPyWs).head? = (pyStripList l).head? := isPrefix_head_eq hBA hBnil
      exact dropWhile_head_not isPyWs l c (h1.trans hc)
    have hlast : ∀ c, (pyStripList l).getLast? = some c → isPyWs c = false := by
      intro c hc
      unfold pyStripList at hc
      rw [List.getLast?_reverse] at hc
      exact dropWhile_head_not isPyWs (l.dropWhile isPyWs).reverse c hc
    exact pyStripList_eq_self (pyStripList l) hhead hlast

/-- C8 (amended): a second pass of the content-marker stripper changes
nothing provided the first pass's output contains no residual `<Model`
occurrence (removal can splice one together, as the counterexample shows;
when it does not, both tag-removal scans are the identity and the
whitespace cleanup is a no-op on its own output). -/
theorem convert_model_tags_idem_of_no_marker (s : String)
    (h : hasModelStr (convert_model_tags s) = false) :
    convert_model_tags (convert_model_tags s) = convert_model_tags s := by
  have hmk : ∀ t : String, String.mk t.data = t := fun ⟨d⟩ => rfl
  have hLm : hasModel (convert_model_tags s).data = false := h
  have h1 : noTwoHoriz (convert_model_tags s).data :=
    chain'_pyStripList _
      (punctWs_noTwoHoriz _
        (collapseWs_noTwoHoriz (removeModelOpen (removeModelClosed s.data))))
  have h2 : noWsBeforePunct (convert_model_tags s).data :=
    chain'_pyStripList _
      (punctWs_noWsBeforePunct (collapseWs (removeModelOpen (removeModelClosed s.data))))
  have h3 : pyStripList (convert_model_tags s).data = (convert_model_tags s).data :=
    pyStripList_idem _
  calc convert_model_tags (convert_model_tags s)
      = String.mk (pyStripList (punctWs (collapseWs (removeModelOpen
          (removeModelClosed (convert_model_tags s).data))))) := rfl
    _ = String.mk ((convert_model_tags s).data) := by
          rw [removeModelClosed_id _ hLm, removeModelOpen_id _ hLm,
            collapseWs_id_of_noTwoHoriz _ h1, punctWs_id_of_noWsBeforePunct _ h2, h3]
    _ = convert_model_tags s := hmk _

/-- Witness for C8 at `"a  b ."`: the stripped text has no marker left, and
a second pass changes nothing. -/
theorem convert_model_tags_idem_witness :
    hasModelStr (convert_model_tags "a  b .") = false ∧
    convert_model_tags (convert_model_tags "a  b .") = convert_model_tags "a  b ." :=
  ⟨by decide, convert_model_tags_idem_of_no_marker "a  b ." (by decide)⟩

/-- C9 (amended): the collapse stage rewrites only horizontal whitespace —
the subsequence of non-horizontal-whitespace characters (line breaks
included) is untouched — and leaves no two adjacent horizontal-whitespace
characters; the punctuation stage leaves no whitespace character (of any
kind) immediately before `.`, `,`, `;`, `:`, `!`, `?`.  Line breaks
survive collapsing, but not the punctuation cleanup (nor the final strip),
as the counterexample shows. -/
theorem cleanup_collapse_punct_spec (l : List Char) :
    (collapseWs l).filter (fun c => !(isHorizWs c)) = l.filter (fun c => !(isHorizWs c)) ∧
    noTwoHoriz (collapseWs l) ∧
    noWsBeforePunct (punctWs l) := by
  refine ⟨?_, collapseWs_noTwoHoriz l, punctWs_noWsBeforePunct l⟩
  induction l with
  | nil => rfl
  | cons c cs ih =>
    rw [collapseWs_cons]
    cases hcond : (isHorizWs c && headIsHoriz (collapseWs cs)) with
    | true =>
      rw [if_pos rfl]
      have h0 := hcond
      simp only [Bool.and_eq_true] at h0
      have hc : isHorizWs c = true := h0.1
      have hh : headIsHoriz (collapseWs cs) = true := h0.2
      cases hr : collapseWs cs with
      | nil => rw [hr] at hh; exact absurd hh (by simp [headIsHoriz])
      | cons z t =>
        have hzh : isHorizWs z = true := by
          rw [hr] at hh
          simpa [headIsHoriz] using hh
        rw [hr] at ih
        simp only [List.tail_cons, List.filter_cons] at ih ⊢
        simp only [hzh, hc] at ih ⊢
        simpa using ih
    | false =>
      rw [if_neg (by simp)]
      simp only [List.filter_cons]
      cases hc : isHorizWs c with
      | true => simpa using ih
      | false => simpa using ih
